import Mathlib

/-! The flat configuration of `eslint.config.mjs`.

The file exports one value: what `defineConfig` returns for the array literal
of lines 7–90.  The array is embedded as a list of JavaScript values, the two
presets being arbitrary lists of values that are spread in front of the three
entries the file writes itself.  The helpers and rules of the packages the file
relies on (`eslint/config`, `eslint-plugin-check-file`, `eslint-plugin-import`)
are not part of the repository; they are embedded as far as the file uses them.
-/

namespace EslintConfig

/-- A JavaScript value as it is written in `eslint.config.mjs`: string and
boolean literals, array literals, object literals (fields in source order) and
references to an imported binding. -/
inductive Value where
  | str (s : String)
  | bool (b : Bool)
  | arr (items : List Value)
  | obj (fields : List (String × Value))
  | imported (binding : String)

namespace Value

/-- Field lookup in a list of object fields. -/
def lookup (key : String) : List (String × Value) → Option Value
  | [] => none
  | (k, v) :: rest => if k = key then some v else lookup key rest

/-- Property access `v[key]`: the field of an object literal, `none` when the
value is not an object or has no such key (JavaScript `undefined`). -/
def get? (v : Value) (key : String) : Option Value :=
  match v with
  | obj fields => lookup key fields
  | _ => none

/-- Own keys of an object literal, in source order (`Object.keys`). -/
def keys : Value → List String
  | obj fields => fields.map Prod.fst
  | _ => []

/-- Key/value pairs of an object literal (`Object.entries`). -/
def entries : Value → List (String × Value)
  | obj fields => fields
  | _ => []

/-- Elements of an array literal. -/
def elems : Value → List Value
  | arr items => items
  | _ => []

/-- The string a value is, when it is a string literal. -/
def asStr? : Value → Option String
  | str s => some s
  | _ => none

/-- The boolean a value is, when it is a boolean literal. -/
def asBool? : Value → Option Bool
  | bool b => some b
  | _ => none

/-- The strings of an array of string literals (non-strings are skipped). -/
def strings (v : Value) : List String :=
  v.elems.filterMap asStr?

/-- JavaScript truthiness: the empty string and `false` are falsy, every other
value that can be written here is truthy. -/
def truthy : Value → Bool
  | .str s => decide (s ≠ "")
  | .bool b => b
  | _ => true

end Value

open Value

/-! ## The helpers of `eslint/config` -/

/-- The helper `globalIgnores(ignorePatterns)`: it throws (`none`) when the list
is empty, and otherwise returns the object `{ name, ignores: ignorePatterns }`,
which has no `files` and no `rules`.  The helper makes the name up from a count
of its calls; here it is the parameter `label`. -/
def globalIgnores (label : String) (ignorePatterns : List String) : Option Value :=
  if ignorePatterns.isEmpty then none
  else some (obj [("name", str label), ("ignores", arr (ignorePatterns.map str))])

mutual
/-- The helper's traversal of its arguments: nested arrays are opened up, to any
depth, and their elements kept in order. -/
def flatTraverse : List Value → List Value
  | [] => []
  | v :: vs => flatValue v ++ flatTraverse vs
/-- The elements one argument contributes to the traversal. -/
def flatValue : Value → List Value
  | arr items => flatTraverse items
  | v => [v]
end

/-- Whether the helper takes a traversed element for an object; for a string or
a boolean it throws. -/
def isObject : Value → Bool
  | .str _ => false
  | .bool _ => false
  | _ => true

/-- Whether an object literal has an `extends` key holding a truthy value. -/
def hasExtends (config : Value) : Bool :=
  match config.get? "extends" with
  | some v => truthy v
  | none => false

/-- The helper's `processExtends`: an object literal without a truthy `extends`
is returned as it is, alone.  What the helper makes of an `extends`, and of an
object whose keys the file does not show, is not determined by this file; it is
the parameter `expand` (`none` when the helper throws). -/
def processExtends (expand : Value → Option (List Value)) (config : Value) :
    Option (List Value) :=
  match config with
  | obj _ => if hasExtends config then expand config else some [config]
  | _ => expand config

/-- The helper's `processConfigList`: the results of `processExtends`, joined in
order. -/
def processConfigList (expand : Value → Option (List Value)) :
    List Value → Option (List Value)
  | [] => some []
  | config :: rest =>
    (processExtends expand config).bind
      (fun first => (processConfigList expand rest).map (fun others => first ++ others))

/-- The helper `defineConfig(...args)`: the arguments are traversed, a traversed
element that is not an object makes the helper throw (`none`), and the objects
are then put through `processExtends`. -/
def defineConfig (expand : Value → Option (List Value)) (args : List Value) :
    Option (List Value) :=
  if (flatTraverse args).all isObject then processConfigList expand (flatTraverse args)
  else none

/-! ## The array literal of lines 7–90 -/

/-- Lines 18–75: the object literal without a `files` key. -/
def unscopedObject : Value :=
  obj [
    ("plugins", obj [
      ("import", imported "eslintPluginImport"),
      ("check-file", imported "checkFile")]),
    ("settings", obj [
      ("import/resolver", obj [
        ("node", obj [
          ("extensions", arr [str ".js", str ".jsx", str ".ts", str ".tsx"])]),
        ("typescript", obj [])])]),
    ("rules", obj [
      ("import/no-cycle", str "error"),
      ("import/no-restricted-paths", arr [
        str "error",
        obj [
          ("zones", arr [
            obj [("target", str "./scripts"), ("from", str "./app")],
            obj [("target", str "./tests"), ("from", str "./app")]])]]),
      ("import/order", arr [
        str "error",
        obj [
          ("groups", arr [
            str "builtin",
            str "external",
            str "internal",
            str "parent",
            str "sibling",
            str "index",
            str "object",
            str "type"]),
          ("newlines-between", str "always"),
          ("alphabetize", obj [("order", str "asc"), ("caseInsensitive", bool true)])]]),
      ("check-file/filename-naming-convention", arr [
        str "error",
        obj [("tests/**/*.\x7bjs,jsx,ts,tsx,mjs\x7d", str "KEBAB_CASE")],
        obj [("ignoreMiddleExtensions", bool true)]])])]

/-- Lines 76–89: the object literal scoped by `files: ['scripts/**/*']`. -/
def scriptsObject : Value :=
  obj [
    ("files", arr [str "scripts/**/*"]),
    ("plugins", obj [("check-file", imported "checkFile")]),
    ("rules", obj [
      ("check-file/folder-naming-convention", arr [
        str "error",
        obj [("**/*", str "KEBAB_CASE")]])])]

/-- The array literal passed to `defineConfig`: both presets spread in order,
then the value of the call `globalIgnores([...])` of lines 11–17 and the two
object literals. -/
def configArray (label : String) (nextVitals nextTs : List Value) : Option (List Value) :=
  (globalIgnores label [".next/**", "out/**", "build/**", "next-env.d.ts"]).map
    (fun ignoresEntry => nextVitals ++ nextTs ++ [ignoresEntry, unscopedObject, scriptsObject])

/-- The entries the file writes itself, in source order: the array literal with
nothing spread into it. -/
def ownEntries (label : String) : Option (List Value) :=
  configArray label [] []

/-- The exported `eslintConfig`: `defineConfig` applied to the array literal. -/
def eslintConfig (expand : Value → Option (List Value)) (label : String)
    (nextVitals nextTs : List Value) : Option (List Value) :=
  (configArray label nextVitals nextTs).bind (fun configs => defineConfig expand [arr configs])

/-- A preset entry the helper passes through: an object literal without a
truthy `extends`. -/
def isPlainConfig : Value → Bool
  | obj fields => !(hasExtends (obj fields))
  | _ => false

/-! ## Reading the entries -/

/-- The `rules` mapping of an entry as name/value pairs; `none` when the entry
has no `rules` key or the key does not hold an object. -/
def rulesOf? (entry : Value) : Option (List (String × Value)) :=
  match entry.get? "rules" with
  | some (obj fields) => some fields
  | _ => none

/-- The rule name/value pairs of an entry (empty without a `rules` key). -/
def rulesOf (entry : Value) : List (String × Value) :=
  (rulesOf? entry).getD []

/-- The `files` globs of an entry, `none` when the key is absent. -/
def filesOf? (entry : Value) : Option (List String) :=
  (entry.get? "files").map strings

/-- The `ignores` globs of an entry, `none` when the key is absent. -/
def ignoresOf? (entry : Value) : Option (List String) :=
  (entry.get? "ignores").map strings

/-- The plugin namespaces an entry registers (keys of its `plugins`). -/
def pluginsOf (entry : Value) : List String :=
  match entry.get? "plugins" with
  | some p => p.keys
  | none => []

/-- Severity of a rule value: the value itself, or the first element when the
value is an array. -/
def severity? : Value → Option String
  | str s => some s
  | arr (str s :: _) => some s
  | _ => none

/-- Options of a rule value: the array elements after the severity. -/
def optionsOf : Value → List Value
  | arr (_ :: opts) => opts
  | _ => []

/-- The glob-to-convention pairs of a naming rule of `eslint-plugin-check-file`
in an entry: the fields of the first option object of the rule's value. -/
def namingPatterns (ruleName : String) (entry : Value) : List (String × Option String) :=
  match lookup ruleName (rulesOf entry) with
  | some v =>
    match optionsOf v with
    | patterns :: _ => patterns.entries.map (fun kv => (kv.1, kv.2.asStr?))
    | [] => []
  | none => []

/-- The second option object of a rule's value in an entry. -/
def secondOption? (ruleName : String) (entry : Value) : Option Value :=
  match lookup ruleName (rulesOf entry) with
  | some v => (optionsOf v).get? 1
  | none => none

/-! ## Glob patterns

The naming rules of `eslint-plugin-check-file` match paths against globs with
the usual glob rules: a path and a pattern are cut at `/`; a group `{a,b}` stands
for each of its alternatives; a `*` stands for any run of characters inside one
segment and a segment `**` for zero or more whole segments, neither of them
taking a name that begins with a dot.
-/

/-- Cut a path at every `/`. -/
def splitSlash : List Char → List (List Char)
  | [] => [[]]
  | c :: cs =>
    if c = '/' then [] :: splitSlash cs
    else
      match splitSlash cs with
      | [] => [[c]]
      | seg :: segs => (c :: seg) :: segs

/-- Brace expansion.  Outside a group (`none`) characters are copied; inside a
group (`some (alts, cur)`) the alternatives read so far are `alts` and the one
being read is `cur`.  Groups do not nest; a group left open is literal text. -/
def expandBraces : Option (List (List Char) × List Char) → List Char → List (List Char)
  | none, [] => [[]]
  | none, c :: cs =>
    if c = '\x7b' then expandBraces (some ([], [])) cs
    else (expandBraces none cs).map (fun e => c :: e)
  | some (alts, cur), [] => ['\x7b' :: List.intercalate [','] (alts ++ [cur])]
  | some (alts, cur), c :: cs =>
    if c = '\x7d' then
      (alts ++ [cur]).flatMap (fun a => (expandBraces none cs).map (fun e => a ++ e))
    else if c = ',' then expandBraces (some (alts ++ [cur], [])) cs
    else expandBraces (some (alts, cur ++ [c])) cs

/-- Whether a segment begins with a dot: a hidden name, `.` or `..`. -/
def hidden (s : List Char) : Bool :=
  decide (s.head? = some '.')

/-- Match the characters of a segment against those of a pattern segment: `*`
stands for any (possibly empty) run of characters, every other character for
itself. -/
def wildcard : List Char → List Char → Bool
  | [], s => s.isEmpty
  | p :: ps, s =>
    if p = '*' then s.tails.any (wildcard ps)
    else
      match s with
      | [] => false
      | c :: cs => decide (p = c) && wildcard ps cs

/-- Match one path segment against one pattern segment.  A pattern segment that
begins with `*` takes only a segment that is not empty and does not begin with
a dot. -/
def matchSegment (p s : List Char) : Bool :=
  if p.head? = some '*' then !s.isEmpty && !hidden s && wildcard p s
  else wildcard p s

/-- What a segment `**` does: it passes over zero or more leading segments, none
of which begins with a dot, and hands the rest to `k`. -/
def skipSegments (k : List (List Char) → Bool) : List (List Char) → Bool
  | [] => k []
  | s :: rest => k (s :: rest) || (!hidden s && skipSegments k rest)

/-- Match the segments of a path against the segments of a pattern. -/
def matchSegments : List (List Char) → List (List Char) → Bool
  | [], path => path.isEmpty
  | p :: ps, path =>
    if p = ['*', '*'] then skipSegments (matchSegments ps) path
    else
      match path with
      | [] => false
      | s :: rest => matchSegment p s && matchSegments ps rest

/-- A path matches a glob when it matches one of its brace expansions. -/
def globMatch (glob path : String) : Bool :=
  (expandBraces none glob.toList).any
    (fun p => matchSegments (splitSlash p) (splitSlash path.toList))

/-- The segments of a path. -/
def segments (path : String) : List (List Char) :=
  splitSlash path.toList

/-- First segment of a path. -/
def firstSegment (path : String) : List Char :=
  (segments path).headD []

/-- File name of a path: its last segment. -/
def fileName (path : String) : List Char :=
  (segments path).getLastD []

/-- The rule name of the folder naming convention. -/
def folderRule : String := "check-file/folder-naming-convention"

/-- The rule name of the filename naming convention. -/
def filenameRule : String := "check-file/filename-naming-convention"

/-- The globs of the filename naming rule in a list of entries. -/
def filenameGlobs (entries : List Value) : List String :=
  entries.flatMap (fun e => (namingPatterns filenameRule e).map Prod.fst)

/-- The five extensions of the filename glob. -/
def testExtensions : List String := [".js", ".jsx", ".ts", ".tsx", ".mjs"]

/-! ## Restricted paths

The rule `import/no-restricted-paths` of `eslint-plugin-import` takes the zones
whose `target` holds the linted file and reports a required module that the
resolver finds under the zone's `from`.  Whether a directory holds a path is
`containsPath`: the path, taken relative to the directory, must not begin with
`..`.  Paths are POSIX paths; `path.resolve` and `path.relative` are embedded on
the segments of absolute paths.
-/

/-- A zone with one `target`, one `from` (here `source`) and no `except`. -/
structure Zone where
  target : String
  source : String
  deriving DecidableEq

/-- The options of `import/no-restricted-paths` in an entry: the first element
after the severity. -/
def restrictedPathsOptions (entry : Value) : Option Value :=
  match lookup "import/no-restricted-paths" (rulesOf entry) with
  | some v => (optionsOf v).head?
  | none => none

/-- Read a zone object whose keys are `target` and `from`, both strings. -/
def zoneOf? (z : Value) : Option Zone :=
  if z.keys.all (fun k => decide (k = "target" ∨ k = "from")) then
    match (z.get? "target").bind asStr?, (z.get? "from").bind asStr? with
    | some target, some source => some ⟨target, source⟩
    | _, _ => none
  else none

/-- Read a list of zone objects; `none` when one of them is not of the shape
`zoneOf?` reads. -/
def zoneList? : List Value → Option (List Zone)
  | [] => some []
  | z :: zs =>
    match zoneOf? z, zoneList? zs with
    | some zone, some zones => some (zone :: zones)
    | _, _ => none

/-- The `zones` of the rule's options (`options.zones || []`). -/
def zonesOf? (options : Value) : Option (List Zone) :=
  match options.get? "zones" with
  | some zs => zoneList? zs.elems
  | none => some []

/-- The `basePath` of the rule's options, when it holds a non-empty string; the
rule falls back on the working directory otherwise. -/
def basePathOf (options : Value) : Option String :=
  match (options.get? "basePath").bind asStr? with
  | some base => if base = "" then none else some base
  | none => none

/-- One step of path resolution: empty and `.` segments are dropped, `..`
steps back one segment (not past the root), any other segment is appended. -/
def resolveStep (acc : List (List Char)) (seg : List Char) : List (List Char) :=
  if seg = [] ∨ seg = ['.'] then acc
  else if seg = ['.', '.'] then acc.dropLast
  else acc ++ [seg]

/-- Resolve one path on top of the absolute path `acc`: an absolute path starts
again from the root, a relative one goes on from `acc`. -/
def resolveOne (acc : List (List Char)) (path : String) : List (List Char) :=
  (splitSlash path.toList).foldl resolveStep (if path.toList.head? = some '/' then [] else acc)

/-- The segments of the working directory `cwd`, an absolute path. -/
def workingDirectory (cwd : String) : List (List Char) :=
  (splitSlash cwd.toList).foldl resolveStep []

/-- The function `path.resolve(...paths)` in the working directory `cwd`: the
segments of the absolute path the arguments lead to. -/
def pathResolve (cwd : String) (paths : List String) : List (List Char) :=
  paths.foldl resolveOne (workingDirectory cwd)

/-- Write an absolute path out from its segments. -/
def renderPath (segs : List (List Char)) : String :=
  String.mk ('/' :: List.intercalate ['/'] segs)

/-- Drop the segments two absolute paths start with in common. -/
def stripCommon : List (List Char) → List (List Char) → List (List Char) × List (List Char)
  | a :: as, b :: bs => if a = b then stripCommon as bs else (a :: as, b :: bs)
  | as, bs => (as, bs)

/-- The function `path.relative(from, to)` on two absolute paths: one `..` for
every segment of `from` past the common start, then what is left of `to`. -/
def pathRelative (fromPath toPath : List (List Char)) : List Char :=
  List.intercalate ['/']
    ((stripCommon fromPath toPath).1.map (fun _ => ['.', '.']) ++ (stripCommon fromPath toPath).2)

/-- The rule's `containsPath(filepath, target)`: the path of `filepath` relative
to `target` is empty or does not start with `..`. -/
def containsPath (filepath target : List (List Char)) : Bool :=
  (pathRelative target filepath).isEmpty || !(['.', '.'].isPrefixOf (pathRelative target filepath))

/-- The rule's `isMatchingTargetPath(filename, targetPath)`.  A target that
`is-glob` takes for a glob pattern is matched by `minimatch`; both packages are
parameters.  Any other target is a directory that has to contain the file. -/
def isMatchingTargetPath (isGlob : String → Bool) (minimatch : String → String → Bool)
    (cwd filename : String) (targetPath : List (List Char)) : Bool :=
  if isGlob (renderPath targetPath) then minimatch (renderPath targetPath) filename
  else containsPath (pathResolve cwd [filename]) targetPath

/-- Whether a zone's `from` restricts the resolved module: a glob `from` is
matched by `minimatch`, any other is a directory that has to contain the
module. -/
def isPathRestricted (isGlob : String → Bool) (minimatch : String → String → Bool)
    (cwd : String) (basePath : Option String) (zone : Zone) (absolutePath : String) : Bool :=
  if isGlob zone.source then
    minimatch (renderPath (pathResolve cwd (basePath.toList ++ [zone.source]))) absolutePath
  else containsPath (pathResolve cwd [absolutePath])
    (pathResolve cwd (basePath.toList ++ [zone.source]))

/-- Whether the rule reports a module required by the file `currentFilename`.
`absoluteImportPath` is what the resolver finds for the module, `none` when it
finds nothing; the rule then reports nothing. -/
def reportsRestricted (isGlob : String → Bool) (minimatch : String → String → Bool)
    (cwd : String) (basePath : Option String) (zones : List Zone)
    (currentFilename : String) (absoluteImportPath : Option String) : Bool :=
  match absoluteImportPath with
  | none => false
  | some absolutePath =>
    zones.any (fun zone =>
      isMatchingTargetPath isGlob minimatch cwd currentFilename
          (pathResolve cwd (basePath.toList ++ [zone.target])) &&
        isPathRestricted isGlob minimatch cwd basePath zone absolutePath)

/-- The rule with the options it is given; `none` when the zones are not of
the shape `zonesOf?` reads. -/
def noRestrictedPaths (isGlob : String → Bool) (minimatch : String → String → Bool)
    (cwd : String) (options : Value) (currentFilename : String)
    (absoluteImportPath : Option String) : Option Bool :=
  (zonesOf? options).map (fun zones =>
    reportsRestricted isGlob minimatch cwd (basePathOf options) zones currentFilename
      absoluteImportPath)

/-- Whether `path` lies under the directory `dir`, segment by segment. -/
def liesUnder (dir path : List (List Char)) : Bool :=
  dir.isPrefixOf path

/-- The name directly below `dir` on the way to `path`. -/
def nameBelow (dir path : List (List Char)) : List Char :=
  (path.drop dir.length).headD []

/-- Whether a name begins with `..`. -/
def beginsDotDot (name : List Char) : Bool :=
  ['.', '.'].isPrefixOf name

/-- Whether `path` is held by the directory `dir` of the working directory
`cwd`: it lies under it, and the name directly below the directory does not
begin with `..`. -/
def heldBy (cwd dir path : String) : Bool :=
  liesUnder (pathResolve cwd [dir]) (pathResolve cwd [path]) &&
    !beginsDotDot (nameBelow (pathResolve cwd [dir]) (pathResolve cwd [path]))

/-! ## Rule names -/

/-- Plugin namespace of a rule name `<plugin>/<rule>`: the text before the last
`/`; `none` for a name without `/`. -/
def pluginOf (ruleName : String) : Option String :=
  match (splitSlash ruleName.toList).dropLast with
  | [] => none
  | parts => some (String.mk (List.intercalate ['/'] parts))

/-- Whether an entry declares the rule of the given name. -/
def declaresRule (ruleName : String) (entry : Value) : Bool :=
  (lookup ruleName (rulesOf entry)).isSome


/-! ## The helper on plain configuration objects -/

theorem isPlainConfig_cases (e : Value) (h : isPlainConfig e = true) :
    ∃ fields, e = obj fields ∧ hasExtends (obj fields) = false := by
  cases e with
  | obj fields => exact ⟨fields, rfl, by simpa [isPlainConfig] using h⟩
  | str s => exact absurd h (by simp [isPlainConfig])
  | bool b => exact absurd h (by simp [isPlainConfig])
  | arr items => exact absurd h (by simp [isPlainConfig])
  | imported b => exact absurd h (by simp [isPlainConfig])

theorem flatTraverse_plain (configs : List Value)
    (h : ∀ e ∈ configs, isPlainConfig e = true) : flatTraverse configs = configs := by
  induction configs with
  | nil => simp [flatTraverse]
  | cons c cs ih =>
    obtain ⟨fields, rfl, _⟩ := isPlainConfig_cases c (h c (List.mem_cons_self _ _))
    have hcs : ∀ e ∈ cs, isPlainConfig e = true := fun e he => h e (List.mem_cons_of_mem _ he)
    simp [flatTraverse, flatValue, ih hcs]

theorem all_isObject_plain (configs : List Value)
    (h : ∀ e ∈ configs, isPlainConfig e = true) : configs.all isObject = true := by
  rw [List.all_eq_true]
  intro e he
  obtain ⟨fields, rfl, _⟩ := isPlainConfig_cases e (h e he)
  rfl

theorem processConfigList_plain (expand : Value → Option (List Value)) (configs : List Value)
    (h : ∀ e ∈ configs, isPlainConfig e = true) :
    processConfigList expand configs = some configs := by
  induction configs with
  | nil => rfl
  | cons c cs ih =>
    obtain ⟨fields, rfl, hext⟩ := isPlainConfig_cases c (h c (List.mem_cons_self _ _))
    have hcs : ∀ e ∈ cs, isPlainConfig e = true := fun e he => h e (List.mem_cons_of_mem _ he)
    simp [processConfigList, processExtends, hext, ih hcs]

theorem defineConfig_plain (expand : Value → Option (List Value)) (configs : List Value)
    (h : ∀ e ∈ configs, isPlainConfig e = true) :
    defineConfig expand [arr configs] = some configs := by
  have hflat : flatTraverse [arr configs] = configs := by
    simp [flatTraverse, flatValue, flatTraverse_plain configs h]
  rw [defineConfig, hflat, all_isObject_plain configs h, if_pos rfl,
    processConfigList_plain expand configs h]


/-! ## Glob matching -/

theorem wildcard_literal (p : List Char) (hp : '*' ∉ p) (s : List Char) :
    wildcard p s = true ↔ s = p := by
  induction p generalizing s with
  | nil => cases s <;> simp [wildcard]
  | cons a p ih =>
    have ha : a ≠ '*' := fun h => hp (by simp [h])
    have hp2 : '*' ∉ p := fun h => hp (by simp [h])
    cases s with
    | nil => simp [wildcard, ha]
    | cons c cs =>
      simp only [wildcard, if_neg ha, Bool.and_eq_true, decide_eq_true_eq, ih hp2,
        List.cons.injEq]
      exact ⟨fun h => ⟨h.1.symm, h.2⟩, fun h => ⟨h.1.symm, h.2⟩⟩

theorem wildcard_star_literal (p : List Char) (hp : '*' ∉ p) (s : List Char) :
    wildcard ('*' :: p) s = true ↔ p <:+ s := by
  simp only [wildcard, if_true, List.any_eq_true, List.mem_tails]
  constructor
  · rintro ⟨t, ht, hm⟩
    rw [(wildcard_literal p hp t).1 hm] at ht
    exact ht
  · intro h
    exact ⟨p, h, (wildcard_literal p hp p).2 rfl⟩

theorem matchSegment_literal (p : List Char) (hp : '*' ∉ p) (s : List Char) :
    matchSegment p s = true ↔ s = p := by
  have hhead : p.head? ≠ some '*' := by
    intro h
    cases p with
    | nil => simp at h
    | cons a p =>
      simp only [List.head?_cons, Option.some.injEq] at h
      exact hp (by simp [h])
  rw [matchSegment, if_neg hhead, wildcard_literal p hp]

theorem matchSegment_star_literal (p : List Char) (hp : '*' ∉ p) (s : List Char) :
    matchSegment ('*' :: p) s = true ↔ s ≠ [] ∧ hidden s = false ∧ p <:+ s := by
  have hhead : ('*' :: p).head? = some '*' := rfl
  rw [matchSegment, if_pos hhead]
  simp only [Bool.and_eq_true, Bool.not_eq_true', List.isEmpty_eq_false, ne_eq,
    wildcard_star_literal p hp, and_assoc]

theorem skipSegments_iff (k : List (List Char) → Bool) (path : List (List Char)) :
    skipSegments k path = true ↔
      ∃ pre post, path = pre ++ post ∧ (∀ x ∈ pre, hidden x = false) ∧ k post = true := by
  induction path with
  | nil =>
    simp only [skipSegments]
    constructor
    · intro h
      exact ⟨[], [], rfl, by simp, h⟩
    · rintro ⟨pre, post, h, _, hk⟩
      obtain ⟨_, rfl⟩ := List.append_eq_nil.1 h.symm
      exact hk
  | cons s rest ih =>
    simp only [skipSegments, Bool.or_eq_true, Bool.and_eq_true, Bool.not_eq_true', ih]
    constructor
    · rintro (h | ⟨hs, pre, post, rfl, hpre, hk⟩)
      · exact ⟨[], s :: rest, rfl, by simp, h⟩
      · refine ⟨s :: pre, post, rfl, ?_, hk⟩
        intro x hx
        rcases List.mem_cons.1 hx with rfl | hx
        · exact hs
        · exact hpre x hx
    · rintro ⟨pre, post, h, hpre, hk⟩
      cases pre with
      | nil =>
        left
        rw [List.nil_append] at h
        rw [h]
        exact hk
      | cons y pre =>
        right
        rw [List.cons_append, List.cons.injEq] at h
        obtain ⟨rfl, rfl⟩ := h
        exact ⟨hpre _ (List.mem_cons_self _ _), pre, post, rfl,
          fun x hx => hpre x (List.mem_cons_of_mem _ hx), hk⟩

theorem matchSegments_globstar (ps : List (List Char)) (path : List (List Char)) :
    matchSegments (['*', '*'] :: ps) path = skipSegments (matchSegments ps) path := by
  simp only [matchSegments, if_true]

theorem matchSegments_cons (p : List Char) (hp : p ≠ ['*', '*']) (ps : List (List Char))
    (s : List Char) (rest : List (List Char)) :
    matchSegments (p :: ps) (s :: rest) = (matchSegment p s && matchSegments ps rest) := by
  simp only [matchSegments, if_neg hp]

theorem matchSegments_cons_nil (p : List Char) (hp : p ≠ ['*', '*']) (ps : List (List Char)) :
    matchSegments (p :: ps) [] = false := by
  simp only [matchSegments, if_neg hp]

theorem matchSegments_single (p : List Char) (hp : p ≠ ['*', '*']) (path : List (List Char)) :
    matchSegments [p] path = true ↔ ∃ s, path = [s] ∧ matchSegment p s = true := by
  cases path with
  | nil => simp [matchSegments_cons_nil p hp]
  | cons s rest =>
    rw [matchSegments_cons p hp]
    cases rest with
    | nil => simp [matchSegments]
    | cons r rest => simp [matchSegments]

theorem matchSegments_dir_globstar_last (d p : List Char) (hd : '*' ∉ d)
    (hp : p ≠ ['*', '*']) (path : List (List Char)) :
    matchSegments [d, ['*', '*'], p] path = true ↔
      ∃ pre s, path = d :: (pre ++ [s]) ∧ (∀ x ∈ pre, hidden x = false) ∧
        matchSegment p s = true := by
  have hd2 : d ≠ ['*', '*'] := fun h => hd (by simp [h])
  cases path with
  | nil => simp [matchSegments_cons_nil d hd2]
  | cons x rest =>
    rw [matchSegments_cons d hd2, Bool.and_eq_true, matchSegment_literal d hd,
      matchSegments_globstar, skipSegments_iff]
    simp only [matchSegments_single p hp]
    constructor
    · rintro ⟨rfl, pre, post, rfl, hpre, s, rfl, hs⟩
      exact ⟨pre, s, rfl, hpre, hs⟩
    · rintro ⟨pre, s, h, hpre, hs⟩
      rw [List.cons.injEq] at h
      obtain ⟨rfl, rfl⟩ := h
      exact ⟨rfl, pre, [s], rfl, hpre, s, rfl, hs⟩

theorem tests_dir_suffix (ext : List Char) (hne : ext ≠ [])
    (hext : ¬ ext <:+ "tests".toList) (segs : List (List Char)) :
    (∃ pre s, segs = "tests".toList :: (pre ++ [s]) ∧ (∀ x ∈ pre, hidden x = false) ∧
        s ≠ [] ∧ hidden s = false ∧ ext <:+ s) ↔
      segs.headD [] = "tests".toList ∧ (∀ x ∈ segs.tail, hidden x = false) ∧
        ext <:+ segs.getLastD [] := by
  constructor
  · rintro ⟨pre, s, rfl, hpre, _, hs, hsuf⟩
    refine ⟨rfl, ?_, ?_⟩
    · intro x hx
      simp only [List.tail_cons, List.mem_append, List.mem_singleton] at hx
      rcases hx with hx | rfl
      · exact hpre x hx
      · exact hs
    · rw [← List.cons_append, List.getLastD_eq_getLast?, List.getLast?_append]
      simpa using hsuf
  · rintro ⟨hhead, htail, hsuf⟩
    cases segs with
    | nil => exact absurd hhead (by decide)
    | cons x rest =>
      have hx : x = "tests".toList := hhead
      subst hx
      rcases List.eq_nil_or_concat rest with rfl | ⟨pre, s, hrest⟩
      · exact absurd hsuf hext
      · rw [List.concat_eq_append] at hrest
        subst hrest
        have hlast : ("tests".toList :: (pre ++ [s])).getLastD [] = s := by
          rw [← List.cons_append, List.getLastD_eq_getLast?, List.getLast?_append]
          simp
        rw [hlast] at hsuf
        refine ⟨pre, s, rfl, ?_, ?_, ?_, hsuf⟩
        · intro y hy
          exact htail y (by simp [hy])
        · intro hs
          subst hs
          exact hne (List.suffix_nil.1 hsuf)
        · exact htail s (by simp)

theorem matchSegments_tests_ext (ext : List Char) (hstar : '*' ∉ ext)
    (hne : '*' :: ext ≠ ['*', '*']) (hext : ext ≠ []) (hsuf : ¬ ext <:+ "tests".toList)
    (segs : List (List Char)) :
    matchSegments ["tests".toList, ['*', '*'], '*' :: ext] segs = true ↔
      segs.headD [] = "tests".toList ∧ (∀ x ∈ segs.tail, hidden x = false) ∧
        ext <:+ segs.getLastD [] := by
  rw [matchSegments_dir_globstar_last _ _ (by decide) hne]
  simp only [matchSegment_star_literal ext hstar]
  exact tests_dir_suffix ext hext hsuf segs

/-! ## Containment of paths -/

theorem beginsDotDot_intercalate (s : List Char) (rest : List (List Char)) :
    ['.', '.'].isPrefixOf (List.intercalate ['/'] (s :: rest)) = ['.', '.'].isPrefixOf s := by
  cases rest with
  | nil => simp [List.intercalate, List.intersperse]
  | cons r rest =>
    have hshape : List.intercalate ['/'] (s :: r :: rest)
        = s ++ '/' :: List.intercalate ['/'] (r :: rest) := by
      simp [List.intercalate, List.intersperse]
    rw [hshape]
    cases s with
    | nil => simp [List.isPrefixOf]
    | cons a s =>
      cases s with
      | nil => simp [List.isPrefixOf]
      | cons b s => simp [List.isPrefixOf]

theorem stripCommon_spec (dir path : List (List Char)) :
    ∃ common, dir = common ++ (stripCommon dir path).1 ∧
      path = common ++ (stripCommon dir path).2 ∧
      ((stripCommon dir path).1 ≠ [] →
        (stripCommon dir path).1.head? ≠ (stripCommon dir path).2.head?) := by
  induction dir generalizing path with
  | nil => exact ⟨[], by simp [stripCommon]⟩
  | cons a as ih =>
    cases path with
    | nil => exact ⟨[], by simp [stripCommon]⟩
    | cons b bs =>
      by_cases hab : a = b
      · subst hab
        obtain ⟨common, h1, h2, h3⟩ := ih bs
        refine ⟨a :: common, ?_, ?_, ?_⟩
        · simp only [stripCommon, if_true, List.cons_append, List.cons.injEq, true_and]
          exact h1
        · simp only [stripCommon, if_true, List.cons_append, List.cons.injEq, true_and]
          exact h2
        · simpa only [stripCommon, if_true] using h3
      · refine ⟨[], ?_, ?_, ?_⟩
        · simp [stripCommon, hab]
        · simp [stripCommon, hab]
        · simp [stripCommon, hab]

theorem containsPath_iff (filepath dir : List (List Char)) :
    containsPath filepath dir = true ↔
      liesUnder dir filepath = true ∧ beginsDotDot (nameBelow dir filepath) = false := by
  obtain ⟨common, h1, h2, h3⟩ := stripCommon_spec dir filepath
  have hrel : containsPath filepath dir
      = !(['.', '.'].isPrefixOf (pathRelative dir filepath)) := by
    rw [containsPath]
    cases hr : pathRelative dir filepath with
    | nil => simp [List.isPrefixOf]
    | cons c cs => simp
  rw [hrel, liesUnder, nameBelow, beginsDotDot, pathRelative]
  cases hup : (stripCommon dir filepath).1 with
  | nil =>
    rw [hup, List.append_nil] at h1
    subst h1
    have hdrop : List.drop dir.length filepath = (stripCommon dir filepath).2 := by
      conv_lhs => rw [h2]
      exact List.drop_left _ _
    have hpre : dir.isPrefixOf filepath = true := by
      rw [List.isPrefixOf_iff_prefix]
      exact ⟨_, h2.symm⟩
    rw [hdrop, hpre, List.map_nil, List.nil_append]
    cases (stripCommon dir filepath).2 with
    | nil => simp [List.intercalate, List.isPrefixOf]
    | cons s rest =>
      rw [beginsDotDot_intercalate]
      simp
  | cons u ups =>
    have hne : (stripCommon dir filepath).1 ≠ [] := by rw [hup]; simp
    have hheads := h3 hne
    rw [hup] at h1 hheads
    have hnot : dir.isPrefixOf filepath = false := by
      rw [Bool.eq_false_iff, Ne, List.isPrefixOf_iff_prefix]
      rintro ⟨t, ht⟩
      rw [h1, List.append_assoc] at ht
      conv_rhs at ht => rw [h2]
      have ht2 := List.append_cancel_left ht
      rw [← ht2] at hheads
      simp at hheads
    rw [hnot, List.map_cons, List.cons_append, beginsDotDot_intercalate]
    simp [List.isPrefixOf]

theorem pathResolve_below (cwd name : String) (dir : List Char)
    (h : ∀ acc, resolveOne acc name = acc ++ [dir]) :
    pathResolve cwd [name] = workingDirectory cwd ++ [dir] := by
  simp only [pathResolve, List.foldl_cons, List.foldl_nil, h]

theorem liesUnder_disjoint (root : List (List Char)) (a b : List Char) (hab : a ≠ b)
    (path : List (List Char)) (ha : liesUnder (root ++ [a]) path = true) :
    liesUnder (root ++ [b]) path = false := by
  rw [Bool.eq_false_iff]
  intro hb
  rw [liesUnder, List.isPrefixOf_iff_prefix] at ha hb
  obtain ⟨ta, hta⟩ := ha
  obtain ⟨tb, htb⟩ := hb
  rw [← htb, List.append_assoc, List.append_assoc] at hta
  have h := List.append_cancel_left hta
  simp only [List.singleton_append, List.cons.injEq] at h
  exact hab h.1

/-! ## The claims about the list and its entries -/

/-- C1 (amended): when every preset entry is a configuration object without an
`extends`, the exported `eslintConfig` is `nextVitals ++ nextTs` followed by the
global-ignores entry, the unscoped object and the scripts-scoped object: its
last three entries are those three whatever the presets hold, every preset entry
stands before them, and the preset entries keep their order, `nextVitals`
first. -/
theorem eslintConfig_layout (expand : Value → Option (List Value)) (label : String)
    (nextVitals nextTs : List Value)
    (hplain : ∀ e ∈ nextVitals ++ nextTs, isPlainConfig e = true) :
    ∃ ignoresEntry config,
      ownEntries label = some [ignoresEntry, unscopedObject, scriptsObject] ∧
      eslintConfig expand label nextVitals nextTs = some config ∧
      config = nextVitals ++ nextTs ++ [ignoresEntry, unscopedObject, scriptsObject] ∧
      config.drop (nextVitals.length + nextTs.length)
        = [ignoresEntry, unscopedObject, scriptsObject] ∧
      config.take (nextVitals.length + nextTs.length) = nextVitals ++ nextTs ∧
      (∀ i, i < nextVitals.length → config[i]? = nextVitals[i]?) ∧
      (∀ j, j < nextTs.length → config[nextVitals.length + j]? = nextTs[j]?) ∧
      (∀ k, k < 3 → config[nextVitals.length + nextTs.length + k]?
        = [ignoresEntry, unscopedObject, scriptsObject][k]?) := by
  have hown : ownEntries label = some [obj [("name", str label), ("ignores",
      arr ([".next/**", "out/**", "build/**", "next-env.d.ts"].map str))],
      unscopedObject, scriptsObject] := rfl
  have hownPlain : ∀ e ∈ [obj [("name", str label), ("ignores",
      arr ([".next/**", "out/**", "build/**", "next-env.d.ts"].map str))],
      unscopedObject, scriptsObject], isPlainConfig e = true := of_decide_eq_true rfl
  have hall : ∀ e ∈ nextVitals ++ nextTs ++ [obj [("name", str label), ("ignores",
      arr ([".next/**", "out/**", "build/**", "next-env.d.ts"].map str))],
      unscopedObject, scriptsObject], isPlainConfig e = true := by
    intro e he
    rcases List.mem_append.1 he with h | h
    · exact hplain e h
    · exact hownPlain e h
  have hlen : (nextVitals ++ nextTs).length = nextVitals.length + nextTs.length :=
    List.length_append _ _
  refine ⟨_, _, hown, ?_, rfl, ?_, ?_, ?_, ?_, ?_⟩
  · rw [eslintConfig, configArray]
    simp only [globalIgnores, List.isEmpty_cons, Bool.false_eq_true, if_false,
      Option.map_some', Option.some_bind]
    exact defineConfig_plain expand _ hall
  · rw [← hlen, List.drop_left]
  · rw [← hlen, List.take_left]
  · intro i hi
    rw [List.append_assoc, List.getElem?_append_left hi]
  · intro j hj
    rw [List.append_assoc, List.getElem?_append_right (Nat.le_add_right _ _),
      Nat.add_sub_cancel_left, List.getElem?_append_left hj]
  · intro k _
    rw [← hlen, List.getElem?_append_right (Nat.le_add_right _ _), Nat.add_sub_cancel_left]

/-- Witness of C1: one-object presets, a rules object and a files-scoped
object. -/
theorem eslintConfig_layout_witness :
    (∀ e ∈ [obj [("rules", obj [])]] ++ [obj [("files", arr [str "**/*.ts"])]],
      isPlainConfig e = true) ∧
    ∃ config, eslintConfig (fun _ => none) "ignores" [obj [("rules", obj [])]]
        [obj [("files", arr [str "**/*.ts"])]] = some config ∧
      config.take 2 = [obj [("rules", obj [])]] ++ [obj [("files", arr [str "**/*.ts"])]] :=
  ⟨by decide,
    let ⟨_, config, _, h1, _, _, h2, _⟩ :=
      eslintConfig_layout (fun _ => none) "ignores" [obj [("rules", obj [])]]
        [obj [("files", arr [str "**/*.ts"])]] (by decide)
    ⟨config, h1, h2⟩⟩

/-- Counterexample to C1: a preset that holds a nested array is opened up by
`defineConfig`, so the export is not `nextVitals ++ nextTs` followed by the own
entries; a preset that holds a string makes `defineConfig` throw, so there is no
export at all; and a preset object with an `extends` is exported as it stands
only if the helper's expansion hands it back unchanged. -/
theorem eslintConfig_opens_nested_preset :
    eslintConfig (fun _ => none) "ignores" [arr [obj []]] []
      = (ownEntries "ignores").map (fun own => [obj []] ++ own) ∧
    eslintConfig (fun _ => none) "ignores" [arr [obj []]] []
      ≠ (ownEntries "ignores").map (fun own => [arr [obj []]] ++ [] ++ own) ∧
    eslintConfig (fun _ => none) "ignores" [str "next"] [] = none ∧
    eslintConfig (fun _ => none) "ignores" [str "next"] []
      ≠ (ownEntries "ignores").map (fun own => [str "next"] ++ [] ++ own) ∧
    (∀ expand : Value → Option (List Value),
      expand (obj [("extends", arr [obj []])]) ≠ some [obj [("extends", arr [obj []])]] →
      eslintConfig expand "ignores" [obj [("extends", arr [obj []])]] []
        ≠ (ownEntries "ignores").map
            (fun own => [obj [("extends", arr [obj []])]] ++ [] ++ own)) := by
  refine ⟨rfl, ?_, rfl, ?_, ?_⟩
  · rw [show eslintConfig (fun _ => none) "ignores" [arr [obj []]] []
        = (ownEntries "ignores").map (fun own => [obj []] ++ own) from rfl]
    simp [ownEntries, configArray, globalIgnores]
  · rw [show eslintConfig (fun _ => none) "ignores" [str "next"] [] = none from rfl]
    simp [ownEntries, configArray, globalIgnores]
  · intro expand hexpand h
    have hleft : eslintConfig expand "ignores" [obj [("extends", arr [obj []])]] []
        = (expand (obj [("extends", arr [obj []])])).bind (fun first =>
            (ownEntries "ignores").map (fun own => first ++ own)) := by
      cases hfirst : expand (obj [("extends", arr [obj []])]) with
      | none =>
        simp [eslintConfig, configArray, globalIgnores, defineConfig, flatTraverse, flatValue,
          isObject, processConfigList, processExtends, hasExtends, Value.get?, Value.lookup,
          truthy, hfirst]
      | some first =>
        simp [eslintConfig, configArray, globalIgnores, defineConfig, flatTraverse, flatValue,
          isObject, processConfigList, processExtends, hasExtends, Value.get?, Value.lookup,
          truthy, hfirst, ownEntries, unscopedObject, scriptsObject]
    rw [hleft] at h
    cases hfirst : expand (obj [("extends", arr [obj []])]) with
    | none =>
      rw [hfirst] at h
      simp [ownEntries, configArray, globalIgnores] at h
    | some first =>
      rw [hfirst] at h hexpand
      simp only [ownEntries, configArray, globalIgnores, List.isEmpty_cons, Bool.false_eq_true,
        if_false, Option.map_some', Option.some_bind, List.append_nil, List.nil_append,
        Option.some.injEq] at h
      have h2 := List.append_cancel_right h
      exact hexpand (by rw [h2])

/-- Counterexample to C2: with empty presets every entry of the array is one the
file declares, and the first of them, the value of `globalIgnores([...])`, has
no `rules` key. -/
theorem globalIgnoresEntry_carries_no_rules :
    (configArray "ignores" [] []).map (fun es => es.map (fun e => (e.get? "rules").isSome))
      = some [false, true, true] ∧
    (configArray "ignores" [] []).map (fun es => es.map (fun e => (rulesOf? e).isSome))
      = some [false, true, true] ∧
    ¬ (∀ es, configArray "ignores" [] [] = some es → ∀ e ∈ es, (rulesOf? e).isSome = true) := by
  refine ⟨by decide, by decide, ?_⟩
  intro h
  exact absurd (h _ rfl _ (List.mem_cons_self _ _)) (by decide)

/-- C2 (amended): of the three entries the file declares, the two object
literals each carry a `rules` mapping whose every value has a severity, and the
global-ignores entry carries none; each of the three is either unscoped (neither
`files` nor `ignores`) or scoped by `files` or by ignore globs. -/
theorem ownEntries_rules_and_scope (label : String) :
    ∃ ignoresEntry, ownEntries label = some [ignoresEntry, unscopedObject, scriptsObject] ∧
      (rulesOf? ignoresEntry).isSome = false ∧
      (∀ e ∈ [unscopedObject, scriptsObject],
        (rulesOf? e).isSome = true ∧ ∀ r ∈ rulesOf e, (severity? r.2).isSome = true) ∧
      (∀ e ∈ [ignoresEntry, unscopedObject, scriptsObject],
        (filesOf? e = none ∧ ignoresOf? e = none) ∨ (filesOf? e).isSome = true ∨
          (ignoresOf? e).isSome = true) ∧
      (ignoresOf? ignoresEntry).isSome = true ∧
      (filesOf? unscopedObject = none ∧ ignoresOf? unscopedObject = none) ∧
      (filesOf? scriptsObject).isSome = true :=
  ⟨_, rfl, of_decide_eq_true rfl⟩

/-- C3: the global-ignores entry lists exactly `.next/**`, `out/**`, `build/**`
and `next-env.d.ts`, in that order and without duplicates, and neither of the
other two entries the file declares has an `ignores` key. -/
theorem globalIgnores_patterns (label : String) :
    ∃ ignoresEntry, ownEntries label = some [ignoresEntry, unscopedObject, scriptsObject] ∧
      [ignoresEntry, unscopedObject, scriptsObject].map ignoresOf?
        = [some [".next/**", "out/**", "build/**", "next-env.d.ts"], none, none] ∧
      ignoresOf? ignoresEntry = some [".next/**", "out/**", "build/**", "next-env.d.ts"] ∧
      [".next/**", "out/**", "build/**", "next-env.d.ts"].Nodup ∧
      ignoresOf? unscopedObject = none ∧ ignoresOf? scriptsObject = none :=
  ⟨_, rfl, of_decide_eq_true rfl⟩

/-- Counterexample to C4: `/proj/scripts/..odd.ts` lies under `./scripts` and
the module `/proj/app/page.tsx` under `./app`, and the rule does not report the
dependency: relative to `/proj/scripts` the file is `..odd.ts`, which begins
with `..`.  And in a working directory such as `/pr*j`, if `is-glob` takes the
resolved targets for patterns and `minimatch` does not match the file against
them, a file under `./scripts` is not reported either. -/
theorem restricted_paths_dot_dot_name :
    (restrictedPathsOptions unscopedObject).bind
        (fun options => noRestrictedPaths (fun _ => false) (fun _ _ => false) "/proj" options
          "/proj/scripts/..odd.ts" (some "/proj/app/page.tsx")) = some false ∧
    liesUnder (pathResolve "/proj" ["./scripts"]) (pathResolve "/proj" ["/proj/scripts/..odd.ts"])
      = true ∧
    liesUnder (pathResolve "/proj" ["./app"]) (pathResolve "/proj" ["/proj/app/page.tsx"])
      = true ∧
    pathRelative (pathResolve "/proj" ["./scripts"])
        (pathResolve "/proj" ["/proj/scripts/..odd.ts"]) = "..odd.ts".toList ∧
    (∀ (isGlob : String → Bool) (minimatch : String → String → Bool),
      isGlob "/pr*j/scripts" = true → isGlob "/pr*j/tests" = true →
      minimatch "/pr*j/scripts" "/pr*j/scripts/build.ts" = false →
      minimatch "/pr*j/tests" "/pr*j/scripts/build.ts" = false →
      (restrictedPathsOptions unscopedObject).bind
        (fun options => noRestrictedPaths isGlob minimatch "/pr*j" options
          "/pr*j/scripts/build.ts" (some "/pr*j/app/page.tsx")) = some false) := by
  refine ⟨by decide, by decide, by decide, by decide, ?_⟩
  intro isGlob minimatch h1 h2 h3 h4
  have hopt : restrictedPathsOptions unscopedObject = some (obj [("zones", arr [
      obj [("target", str "./scripts"), ("from", str "./app")],
      obj [("target", str "./tests"), ("from", str "./app")]])]) := rfl
  have hz : zonesOf? (obj [("zones", arr [
      obj [("target", str "./scripts"), ("from", str "./app")],
      obj [("target", str "./tests"), ("from", str "./app")]])])
      = some [⟨"./scripts", "./app"⟩, ⟨"./tests", "./app"⟩] := by decide
  have hb : basePathOf (obj [("zones", arr [
      obj [("target", str "./scripts"), ("from", str "./app")],
      obj [("target", str "./tests"), ("from", str "./app")]])]) = none := by decide
  have hr1 : renderPath (pathResolve "/pr*j" ["./scripts"]) = "/pr*j/scripts" := by decide
  have hr2 : renderPath (pathResolve "/pr*j" ["./tests"]) = "/pr*j/tests" := by decide
  rw [hopt, Option.some_bind, noRestrictedPaths, hz, hb, Option.map_some']
  simp only [reportsRestricted, isMatchingTargetPath, Option.toList, List.nil_append, hr1, hr2,
    h1, h2, h3, h4, if_true, List.any_cons, List.any_nil, Bool.false_and, Bool.or_false,
    Bool.false_eq_true, if_false]

/-- C4 (amended): the path-restriction rule is declared by the unscoped object
alone and has exactly two zones, `./scripts` and `./tests` as targets, both
with `./app` as `from`.  With none of the three read as a glob pattern, a
dependency is reported exactly when the module resolves to a path, the requiring
file is held by `./scripts` or `./tests` and the module by `./app`, a directory
holding what lies under it unless the name directly below it begins with `..`;
nothing a file under `./app` requires is reported. -/
theorem restricted_paths_policy (isGlob : String → Bool) (minimatch : String → String → Bool)
    (label cwd currentFilename : String) (absoluteImportPath : Option String)
    (hTargets : isGlob (renderPath (pathResolve cwd ["./scripts"])) = false ∧
      isGlob (renderPath (pathResolve cwd ["./tests"])) = false)
    (hSource : isGlob "./app" = false) :
    ∃ ignoresEntry options,
      ownEntries label = some [ignoresEntry, unscopedObject, scriptsObject] ∧
      (restrictedPathsOptions ignoresEntry).isNone = true ∧
      restrictedPathsOptions unscopedObject = some options ∧
      (restrictedPathsOptions scriptsObject).isNone = true ∧
      zonesOf? options = some [⟨"./scripts", "./app"⟩, ⟨"./tests", "./app"⟩] ∧
      (noRestrictedPaths isGlob minimatch cwd options currentFilename absoluteImportPath
          = some true ↔
        ∃ absolutePath, absoluteImportPath = some absolutePath ∧
          (heldBy cwd "./scripts" currentFilename = true ∨
            heldBy cwd "./tests" currentFilename = true) ∧
          heldBy cwd "./app" absolutePath = true) ∧
      (liesUnder (pathResolve cwd ["./app"]) (pathResolve cwd [currentFilename]) = true →
        noRestrictedPaths isGlob minimatch cwd options currentFilename absoluteImportPath
          = some false) := by
  refine ⟨_, _, rfl, of_decide_eq_true rfl, rfl, of_decide_eq_true rfl,
    of_decide_eq_true rfl, ?_⟩
  have hiff : ∀ imp : Option String,
      noRestrictedPaths isGlob minimatch cwd
          (obj [("zones", arr [
            obj [("target", str "./scripts"), ("from", str "./app")],
            obj [("target", str "./tests"), ("from", str "./app")]])])
          currentFilename imp = some true ↔
        ∃ absolutePath, imp = some absolutePath ∧
          (heldBy cwd "./scripts" currentFilename = true ∨
            heldBy cwd "./tests" currentFilename = true) ∧
          heldBy cwd "./app" absolutePath = true := by
    intro imp
    have hz : zonesOf? (obj [("zones", arr [
        obj [("target", str "./scripts"), ("from", str "./app")],
        obj [("target", str "./tests"), ("from", str "./app")]])])
        = some [⟨"./scripts", "./app"⟩, ⟨"./tests", "./app"⟩] := of_decide_eq_true rfl
    have hb : basePathOf (obj [("zones", arr [
        obj [("target", str "./scripts"), ("from", str "./app")],
        obj [("target", str "./tests"), ("from", str "./app")]])]) = none :=
      of_decide_eq_true rfl
    rw [noRestrictedPaths, hz, hb, Option.map_some', Option.some.injEq]
    cases imp with
    | none => simp [reportsRestricted]
    | some absolutePath =>
      simp only [reportsRestricted, isMatchingTargetPath, isPathRestricted, Option.toList,
        List.nil_append, hTargets.1, hTargets.2, hSource, List.any_cons, List.any_nil,
        Bool.or_false, Bool.or_eq_true, Bool.and_eq_true, containsPath_iff, heldBy,
        Bool.not_eq_true', Option.some.injEq, exists_eq_left', if_false, Bool.false_eq_true]
      tauto
  refine ⟨hiff absoluteImportPath, ?_⟩
  intro happ
  have hscripts : heldBy cwd "./scripts" currentFilename = false := by
    rw [heldBy, pathResolve_below cwd "./scripts" "scripts".toList (fun _ => rfl)]
    rw [pathResolve_below cwd "./app" "app".toList (fun _ => rfl)] at happ
    rw [liesUnder_disjoint _ "app".toList "scripts".toList (by decide) _ happ]
    rfl
  have htests : heldBy cwd "./tests" currentFilename = false := by
    rw [heldBy, pathResolve_below cwd "./tests" "tests".toList (fun _ => rfl)]
    rw [pathResolve_below cwd "./app" "app".toList (fun _ => rfl)] at happ
    rw [liesUnder_disjoint _ "app".toList "tests".toList (by decide) _ happ]
    rfl
  have hnot : noRestrictedPaths isGlob minimatch cwd
      (obj [("zones", arr [
        obj [("target", str "./scripts"), ("from", str "./app")],
        obj [("target", str "./tests"), ("from", str "./app")]])])
      currentFilename absoluteImportPath ≠ some true := by
    intro h
    obtain ⟨_, _, h1 | h1, _⟩ := (hiff absoluteImportPath).1 h
    · rw [hscripts] at h1; exact absurd h1 (by decide)
    · rw [htests] at h1; exact absurd h1 (by decide)
  have hsome : ∃ b, noRestrictedPaths isGlob minimatch cwd
      (obj [("zones", arr [
        obj [("target", str "./scripts"), ("from", str "./app")],
        obj [("target", str "./tests"), ("from", str "./app")]])])
      currentFilename absoluteImportPath = some b := by
    have hz : zonesOf? (obj [("zones", arr [
        obj [("target", str "./scripts"), ("from", str "./app")],
        obj [("target", str "./tests"), ("from", str "./app")]])])
        = some [⟨"./scripts", "./app"⟩, ⟨"./tests", "./app"⟩] := of_decide_eq_true rfl
    rw [noRestrictedPaths, hz]
    exact ⟨_, rfl⟩
  obtain ⟨b, hb⟩ := hsome
  rw [hb] at hnot ⊢
  cases b with
  | false => rfl
  | true => exact absurd rfl hnot

/-- Witness of C4: in `/proj`, with `*` as the mark of a glob, the file
`/proj/app/page.tsx` lies under `./app`, and its requiring
`/proj/scripts/build.ts` is not reported. -/
theorem restricted_paths_policy_witness :
    ((fun p : String => decide ('*' ∈ p.toList)) (renderPath (pathResolve "/proj" ["./scripts"]))
        = false ∧
      (fun p : String => decide ('*' ∈ p.toList)) (renderPath (pathResolve "/proj" ["./tests"]))
        = false) ∧
    (fun p : String => decide ('*' ∈ p.toList)) "./app" = false ∧
    liesUnder (pathResolve "/proj" ["./app"]) (pathResolve "/proj" ["/proj/app/page.tsx"])
      = true ∧
    ∃ options, restrictedPathsOptions unscopedObject = some options ∧
      noRestrictedPaths (fun p : String => decide ('*' ∈ p.toList)) (fun _ _ => false) "/proj"
        options "/proj/app/page.tsx" (some "/proj/scripts/build.ts") = some false :=
  ⟨by decide, by decide, by decide,
    let ⟨_, options, _, _, h1, _, _, _, h2⟩ :=
      restricted_paths_policy (fun p : String => decide ('*' ∈ p.toList)) (fun _ _ => false)
        "ignores" "/proj" "/proj/app/page.tsx" (some "/proj/scripts/build.ts")
        (by decide) (by decide)
    ⟨options, h1, h2 (by decide)⟩⟩

/-- C5: every glob of the filename rule and of the folder rule, in every entry
the file declares, is given `KEBAB_CASE`; the filename rule has the single glob
`tests/**/*.{js,jsx,ts,tsx,mjs}` and its second option sets
`ignoreMiddleExtensions` to `true`. -/
theorem naming_conventions_kebab_case (label : String) :
    ∃ own, ownEntries label = some own ∧
      (∀ e ∈ own, ∀ rule ∈ [filenameRule, folderRule],
        ∀ p ∈ namingPatterns rule e, p.2 = some "KEBAB_CASE") ∧
      own.map (namingPatterns filenameRule)
        = [[], [("tests/**/*.\x7bjs,jsx,ts,tsx,mjs\x7d", some "KEBAB_CASE")], []] ∧
      own.map (namingPatterns folderRule) = [[], [], [("**/*", some "KEBAB_CASE")]] ∧
      ((secondOption? filenameRule unscopedObject).bind
        (fun o => (o.get? "ignoreMiddleExtensions").bind asBool?)) = some true :=
  ⟨_, rfl, of_decide_eq_true rfl⟩

/-- C8: in every entry the file declares, each rule name is `<plugin>/<rule>`
with `<plugin>` a key of that entry's own `plugins`: the unscoped object
registers `import` and `check-file` and its four rules are three of `import` and
one of `check-file`; the scripts object registers `check-file` and its one rule
is of `check-file`. -/
theorem rule_names_registered (label : String) :
    ∃ own, ownEntries label = some own ∧
      (∀ e ∈ own, ∀ r ∈ rulesOf e, ∃ p ∈ pluginsOf e, pluginOf r.1 = some p) ∧
      pluginsOf unscopedObject = [ "import", "check-file"] ∧
      (rulesOf unscopedObject).map (fun r => pluginOf r.1)
        = [some "import", some "import", some "import", some "check-file"] ∧
      pluginsOf scriptsObject = ["check-file"] ∧
      (rulesOf scriptsObject).map (fun r => pluginOf r.1) = [some "check-file"] :=
  ⟨_, rfl, of_decide_eq_true rfl⟩

/-- C9: the folder naming rule is declared by exactly one entry of the file,
the last one, whose `files` is `['scripts/**/*']`; the unscoped object has no
`files` key and declares exactly `import/no-cycle`, `import/no-restricted-paths`,
`import/order` and `check-file/filename-naming-convention`, not the folder
rule. -/
theorem folder_rule_scoped_to_scripts (label : String) :
    ∃ ignoresEntry, ownEntries label = some [ignoresEntry, unscopedObject, scriptsObject] ∧
      [ignoresEntry, unscopedObject, scriptsObject].map (declaresRule folderRule)
        = [false, false, true] ∧
      ([ignoresEntry, unscopedObject, scriptsObject].filter (declaresRule folderRule)).map
        filesOf? = [some ["scripts/**/*"]] ∧
      filesOf? scriptsObject = some ["scripts/**/*"] ∧
      unscopedObject.get? "files" = none ∧
      filesOf? unscopedObject = none ∧
      (rulesOf unscopedObject).map Prod.fst
        = [ "import/no-cycle", "import/no-restricted-paths", "import/order",
            "check-file/filename-naming-convention"] ∧
      declaresRule folderRule unscopedObject = false :=
  ⟨_, rfl, of_decide_eq_true rfl, of_decide_eq_true rfl, of_decide_eq_true rfl, rfl,
    of_decide_eq_true rfl⟩

/-- C10: the entries the file declares hold five rules in all, and the severity
of each (the value itself, or the first element of an array value) is `error`,
never `warn` or `off`. -/
theorem all_rules_severity_error (label : String) :
    ∃ own, ownEntries label = some own ∧
      (own.flatMap rulesOf).length = 5 ∧
      (∀ e ∈ own, ∀ r ∈ rulesOf e,
        severity? r.2 = some "error" ∧ severity? r.2 ≠ some "warn" ∧
          severity? r.2 ≠ some "off") :=
  ⟨_, rfl, of_decide_eq_true rfl⟩

/-- Counterexample to C6: `tests/.ts` and `tests/.dir/foo-bar.ts` have `tests`
as first segment and a file name that ends in `.ts`, and the filename glob
matches neither, because a name that begins with a dot is not taken by `*` or
by `**`. -/
theorem filename_glob_skips_dot_names :
    (ownEntries "ignores").map filenameGlobs
      = some ["tests/**/*.\x7bjs,jsx,ts,tsx,mjs\x7d"] ∧
    globMatch "tests/**/*.\x7bjs,jsx,ts,tsx,mjs\x7d" "tests/.ts" = false ∧
    firstSegment "tests/.ts" = "tests".toList ∧
    ".ts".toList <:+ fileName "tests/.ts" ∧
    globMatch "tests/**/*.\x7bjs,jsx,ts,tsx,mjs\x7d" "tests/.dir/foo-bar.ts" = false ∧
    firstSegment "tests/.dir/foo-bar.ts" = "tests".toList ∧
    ".ts".toList <:+ fileName "tests/.dir/foo-bar.ts" := by
  decide

/-- C6 (amended): the filename rule declares the single glob
`tests/**/*.{js,jsx,ts,tsx,mjs}`, and a path matches it exactly when its first
segment is `tests`, none of its further segments begins with a dot, and its file
name ends in `.js`, `.jsx`, `.ts`, `.tsx` or `.mjs`; so `tests/a/foo-bar.test.ts`
matches, `app/page.tsx` and `tests/readme.md` do not. -/
theorem filename_glob_matches (label : String) (path : String) :
    ∃ own, ownEntries label = some own ∧
      filenameGlobs own = ["tests/**/*.\x7bjs,jsx,ts,tsx,mjs\x7d"] ∧
      (∀ g ∈ filenameGlobs own, (globMatch g path = true ↔
        firstSegment path = "tests".toList ∧
          (∀ s ∈ (segments path).tail, hidden s = false) ∧
          ∃ ext ∈ testExtensions, ext.toList <:+ fileName path)) ∧
      (∀ g ∈ filenameGlobs own, globMatch g "tests/a/foo-bar.test.ts" = true ∧
        globMatch g "app/page.tsx" = false ∧ globMatch g "tests/readme.md" = false) := by
  have hg : (ownEntries label).map filenameGlobs
      = some ["tests/**/*.\x7bjs,jsx,ts,tsx,mjs\x7d"] := of_decide_eq_true rfl
  obtain ⟨own, hown, hglobs⟩ : ∃ own, ownEntries label = some own ∧
      filenameGlobs own = ["tests/**/*.\x7bjs,jsx,ts,tsx,mjs\x7d"] := by
    cases h : ownEntries label with
    | none => rw [h] at hg; exact absurd hg (by simp)
    | some own =>
      rw [h, Option.map_some', Option.some.injEq] at hg
      exact ⟨own, rfl, hg⟩
  refine ⟨own, hown, hglobs, ?_, ?_⟩
  · have hexp : expandBraces none "tests/**/*.\x7bjs,jsx,ts,tsx,mjs\x7d".toList =
        ["tests/**/*.js".toList, "tests/**/*.jsx".toList, "tests/**/*.ts".toList,
          "tests/**/*.tsx".toList, "tests/**/*.mjs".toList] := by decide
    have h1 : splitSlash "tests/**/*.js".toList
        = ["tests".toList, ['*', '*'], '*' :: ".js".toList] := by decide
    have h2 : splitSlash "tests/**/*.jsx".toList
        = ["tests".toList, ['*', '*'], '*' :: ".jsx".toList] := by decide
    have h3 : splitSlash "tests/**/*.ts".toList
        = ["tests".toList, ['*', '*'], '*' :: ".ts".toList] := by decide
    have h4 : splitSlash "tests/**/*.tsx".toList
        = ["tests".toList, ['*', '*'], '*' :: ".tsx".toList] := by decide
    have h5 : splitSlash "tests/**/*.mjs".toList
        = ["tests".toList, ['*', '*'], '*' :: ".mjs".toList] := by decide
    rw [hglobs]
    simp only [List.mem_singleton, forall_eq, exists_eq_left, globMatch, hexp, List.any_cons,
      List.any_nil, Bool.or_false, Bool.or_eq_true, h1, h2, h3, h4, h5,
      matchSegments_tests_ext ".js".toList (by decide) (by decide) (by decide) (by decide),
      matchSegments_tests_ext ".jsx".toList (by decide) (by decide) (by decide) (by decide),
      matchSegments_tests_ext ".ts".toList (by decide) (by decide) (by decide) (by decide),
      matchSegments_tests_ext ".tsx".toList (by decide) (by decide) (by decide) (by decide),
      matchSegments_tests_ext ".mjs".toList (by decide) (by decide) (by decide) (by decide),
      firstSegment, fileName, segments, testExtensions, List.mem_cons, exists_eq_or_imp,
      List.not_mem_nil, false_and, exists_false, or_false]
    generalize splitSlash path.toList = segs
    tauto
  · rw [hglobs]
    decide
end EslintConfig
